import Mathlib

/-
Shallow embedding of the open-data-structures repository (Rust):
  src/array.rs        -- struct Array<T>: a raw growable buffer
  src/array_deque.rs  -- struct ArrayQueue<T>: ring-buffer deque on top of Array
  src/array_queue.rs  -- struct ArrayQueue<T>: the FIFO-only subset (its add/remove
                         are textually the enqueue/dequeue of array_deque.rs with the
                         resize inlined)

Machine integers (usize) are modelled as Nat: none of the modelled operations
relies on wrapping arithmetic (Rust panics on usize overflow in debug builds),
and subtraction only occurs where the source guards against underflow.
Raw memory is modelled as a total function `Nat → α`; uninitialized or
out-of-allocation slots read as `default`.  Panics and allocation failure are
modelled explicitly in the `E`-suffixed variants; the plain definitions follow
the successful, panic-free paths of the same source lines.
-/

namespace ODS

/-- Embeds `struct Array<T>` from src/array.rs: `ptr`/the allocation contents
become `buf : Nat → α` (slot `j` of the allocation holds `buf j`), plus the
`capacity` and `size` fields. -/
structure Arr (α : Type) where
  buf : Nat → α
  capacity : Nat
  size : Nat

variable {α : Type}

/-- Embeds `Array::read_at` (src/array.rs lines 132-137): `None` iff
`idx > self.capacity`, otherwise the raw slot content. -/
def Arr.read_at [Inhabited α] (a : Arr α) (idx : Nat) : Option α :=
  if idx > a.capacity then none else some (a.buf idx)

/-- The in-bounds effect of `Array::write_at` (src/array.rs lines 124-129):
store `val` at slot `idx`.  The `idx > capacity` panic of the source is
modelled by `Arr.write_atE`; every internal caller below passes an index
that the source's check admits. -/
def Arr.write_at (a : Arr α) (idx : Nat) (v : α) : Arr α :=
  { a with buf := fun j => if j = idx then v else a.buf j }

/-- Embeds `Array::write_at` including its panic: `none` models the
`panic!("Index error")` taken when `idx > self.capacity`. -/
def Arr.write_atE (a : Arr α) (idx : Nat) (v : α) : Option (Arr α) :=
  if idx > a.capacity then none else some (a.write_at idx v)

/-- Models `self.arr.read_at(i).unwrap()` as used by the deque loops: the
loops only read indices the source's check admits, where `read_at` is `some`. -/
def Arr.readD [Inhabited α] (a : Arr α) (idx : Nat) : α :=
  (a.read_at idx).getD default

/-- Embeds the successful path of `Array::reallocate` (src/array.rs lines
139-145): capacity becomes `new_capacity`; `realloc` preserves the bytes of
the overlapping prefix of the old and new allocations, anything past it is
uninitialized. -/
def Arr.reallocate [Inhabited α] (a : Arr α) (newCap : Nat) : Arr α :=
  { a with capacity := newCap,
           buf := fun j => if j < min a.capacity newCap then a.buf j else default }

/-- Embeds `Array::reallocate` with the allocator outcome explicit: `allocOk`
says whether `realloc` returns a non-null pointer.  The source assigns
`self.capacity = new_capacity` BEFORE calling `realloc`, so the state carried
by the `error` (the state at the `unwrap` panic) already has the new
capacity. -/
def Arr.reallocateE [Inhabited α] (a : Arr α) (newCap : Nat) (allocOk : Bool) :
    Except (Arr α) (Arr α) :=
  if allocOk then .ok (a.reallocate newCap)
  else .error { a with capacity := newCap }

/-- Embeds `Array::with_capacity` (success path; the source returns `None`
only on layout/allocation failure).  Fresh memory is uninitialized. -/
def Arr.with_capacity (c : Nat) [Inhabited α] : Arr α :=
  { buf := fun _ => default, capacity := c, size := 0 }

/-- Embeds `Array::adjust_size` (src/array.rs lines 148-160). -/
def Arr.adjust_size [Inhabited α] (a : Arr α) : Arr α :=
  let newCap :=
    if a.size ≥ a.capacity then a.capacity * 2
    else if a.size < a.capacity / 2 then a.capacity / 2
    else a.capacity
  if newCap ≠ a.capacity then a.reallocate newCap else a

/-- The loop `for i in idx..self.size - 1` of `Array::remove` (src/array.rs
lines 41-43), ascending, `count` iterations starting at `i = idx`:
`write_at(i, read_at(i + 1).unwrap())`. -/
def arrRemoveLoop [Inhabited α] (idx : Nat) (a : Arr α) : Nat → Arr α
  | 0 => a
  | k + 1 =>
      let b := arrRemoveLoop idx a k
      b.write_at (idx + k) (b.readD (idx + k + 1))

/-- Embeds `Array::remove` (src/array.rs lines 33-50). -/
def Arr.remove [Inhabited α] (a : Arr α) (idx : Nat) : Option α × Arr α :=
  if idx ≥ a.size then (none, a)
  else
    let v := a.read_at idx
    let b := arrRemoveLoop idx a (a.size - 1 - idx)
    (v, Arr.adjust_size { b with size := a.size - 1 })

/-- Embeds `struct ArrayQueue<T>` from src/array_deque.rs (the struct in
src/array_queue.rs is identical). -/
structure ArrayQueue (α : Type) where
  arr : Arr α
  first_in : Nat
  size : Nat

/-- Embeds `ArrayQueue::with_capacity` (success path of the `Option`). -/
def ArrayQueue.with_capacity [Inhabited α] (c : Nat) : ArrayQueue α :=
  { arr := Arr.with_capacity c, first_in := 0, size := 0 }

/-- Embeds `ArrayQueue::mod_index` (src/array_deque.rs lines 162-164). -/
def ArrayQueue.mod_index (q : ArrayQueue α) (idx : Nat) : Nat :=
  (q.first_in + idx) % q.arr.capacity

/-- Embeds `ArrayQueue::peek` (src/array_deque.rs lines 37-46). -/
def ArrayQueue.peek [Inhabited α] (q : ArrayQueue α) (idx : Nat) : Option α :=
  if idx ≥ q.size then none
  else q.arr.read_at ((q.first_in + idx) % q.arr.capacity)

/-- Embeds `ArrayQueue::peek_back` (src/array_deque.rs lines 48-54). -/
def ArrayQueue.peek_back [Inhabited α] (q : ArrayQueue α) : Option α :=
  if q.size = 0 then none else q.peek (q.size - 1)

/-- Embeds `ArrayQueue::dequeue` (src/array_deque.rs lines 56-66), which is
also `ArrayQueue::remove` of src/array_queue.rs (lines 45-55): returns the
read value together with the successor state. -/
def ArrayQueue.dequeue [Inhabited α] (q : ArrayQueue α) : Option α × ArrayQueue α :=
  if q.size = 0 then (none, q)
  else
    (q.arr.read_at q.first_in,
     { q with first_in := (q.first_in + 1) % q.arr.capacity, size := q.size - 1 })

/-- The relayout loop of `ArrayQueue::resize` (src/array_deque.rs lines
184-193), ascending over `i` in `0..size` (`k` iterations processed):
if `(first_in + i) % old_capacity` differs from `(first_in + i) % capacity()`
copy the value across. -/
def relayout [Inhabited α] (f oldCap : Nat) (a : Arr α) : Nat → Arr α
  | 0 => a
  | k + 1 =>
      let b := relayout f oldCap a k
      let former_idx := (f + k) % oldCap
      let new_idx := (f + k) % b.capacity
      if former_idx ≠ new_idx then b.write_at new_idx (b.readD former_idx) else b

/-- Embeds `ArrayQueue::resize` (src/array_deque.rs lines 180-194), successful
allocation path; this same code is inlined in `ArrayQueue::add` of
src/array_queue.rs (lines 58-70). -/
def ArrayQueue.resize [Inhabited α] (q : ArrayQueue α) : ArrayQueue α :=
  let oldCap := q.arr.capacity
  { q with arr := relayout q.first_in oldCap (q.arr.reallocate (2 * oldCap)) q.size }

/-- Embeds `ArrayQueue::enqueue` (src/array_deque.rs lines 167-178), which is
also `ArrayQueue::add` of src/array_queue.rs (lines 57-79). -/
def ArrayQueue.enqueue [Inhabited α] (q : ArrayQueue α) (v : α) : ArrayQueue α :=
  let q := if q.size ≥ q.arr.capacity then q.resize else q
  let dest_idx := (q.first_in + q.size) % q.arr.capacity
  { q with arr := q.arr.write_at dest_idx v, size := q.size + 1 }

/-- The loop `for i in (idx..self.size).rev()` of `ArrayQueue::add`
(src/array_deque.rs lines 78-85): descending from `i = size - 1` down to
`idx` (`count = size - idx` iterations), each doing
`write_at(mod_index(i + 1), read_at(mod_index(i)).unwrap())`. -/
def addLoopTail [Inhabited α] (f idx : Nat) : Nat → Arr α → Arr α
  | 0, a => a
  | k + 1, a =>
      let b := a.write_at ((f + (idx + k) + 1) % a.capacity)
                          (a.readD ((f + (idx + k)) % a.capacity))
      addLoopTail f idx k b

/-- The head-shift loop of `ArrayQueue::add` (src/array_deque.rs lines 89-97
and 101-109): `for i in 0..idx + 1`, with cursor `j` starting at `j0` and set
to `i` after each pass, each pass doing
`write_at(mod_index(j), read_at(mod_index(i)).unwrap())`.  At iteration `i`
the cursor is `j0` for `i = 0` and `i - 1` afterwards; `count = idx + 1`. -/
def addLoopHead [Inhabited α] (f j0 : Nat) (a0 : Arr α) : Nat → Arr α
  | 0 => a0
  | k + 1 =>
      let b := addLoopHead f j0 a0 k
      let j := if k = 0 then j0 else k - 1
      b.write_at ((f + j) % b.capacity) (b.readD ((f + k) % b.capacity))

/-- Embeds `ArrayQueue::add` (src/array_deque.rs lines 71-119).  Note the
final `write_at(self.mod_index(idx), val)` uses `first_in` as already updated
by the head-shift branches. -/
def ArrayQueue.add [Inhabited α] (q : ArrayQueue α) (idx : Nat) (v : α) : ArrayQueue α :=
  let q := if q.size ≥ q.arr.capacity then q.resize else q
  let q :=
    if idx > q.size / 2 then
      { q with arr := addLoopTail q.first_in idx (q.size - idx) q.arr }
    else
      if q.first_in = 0 then
        { q with arr := addLoopHead q.first_in (q.arr.capacity - 1) q.arr (idx + 1),
                 first_in := q.arr.capacity - 1 }
      else
        { q with arr := addLoopHead q.first_in (q.first_in - 1) q.arr (idx + 1),
                 first_in := q.first_in - 1 }
  { q with arr := q.arr.write_at ((q.first_in + idx) % q.arr.capacity) v,
           size := q.size + 1 }

/-- The loop `for i in idx..self.size - 1` of `ArrayQueue::remove`
(src/array_deque.rs lines 134-141), ascending (`count = size - 1 - idx`
iterations starting at `i = idx`):
`write_at(mod_index(i), read_at(mod_index(i + 1)).unwrap())`. -/
def remLoopTail [Inhabited α] (f idx : Nat) (a0 : Arr α) : Nat → Arr α
  | 0 => a0
  | k + 1 =>
      let b := remLoopTail f idx a0 k
      b.write_at ((f + (idx + k)) % b.capacity) (b.readD ((f + (idx + k) + 1) % b.capacity))

/-- The loop `for i in (0..idx).rev()` of `ArrayQueue::remove`
(src/array_deque.rs lines 146-153), descending from `i = idx - 1` to `0`
(`count = idx` iterations):
`write_at(mod_index(i + 1), read_at(mod_index(i)).unwrap())`. -/
def remLoopHead [Inhabited α] (f : Nat) : Nat → Arr α → Arr α
  | 0, a => a
  | k + 1, a =>
      remLoopHead f k (a.write_at ((f + k + 1) % a.capacity) (a.readD ((f + k) % a.capacity)))

/-- Embeds `ArrayQueue::remove` (src/array_deque.rs lines 124-160).  Note the
head branch advances `first_in` WITHOUT reducing it modulo the capacity
(`self.first_in += 1`, line 155). -/
def ArrayQueue.remove [Inhabited α] (q : ArrayQueue α) (idx : Nat) :
    Option α × ArrayQueue α :=
  if idx ≥ q.size then (none, q)
  else
    let el := q.peek idx
    let q :=
      if idx > q.size / 2 then
        { q with arr := remLoopTail q.first_in idx q.arr (q.size - 1 - idx) }
      else
        { q with arr := remLoopHead q.first_in idx q.arr,
                 first_in := q.first_in + 1 }
    (el, { q with size := q.size - 1 })

/-- The logical contents of the ring, position by position: the element at
logical position `i` lives at physical slot `(first_in + i) % capacity`
(doc comment of src/array_deque.rs lines 6-7). -/
def ArrayQueue.toList (q : ArrayQueue α) : List α :=
  (List.range q.size).map fun i => q.arr.buf ((q.first_in + i) % q.arr.capacity)

/-- True exactly on the `error` constructor; an `error` models a Rust panic
(or, for `reallocateE`, the state at the failed `unwrap`). -/
def isErr {ε β : Type} : Except ε β → Bool
  | .error _ => true
  | .ok _ => false

/-- The relayout loop of `ArrayQueue::resize` with the panics explicit: both
`%` operations panic in Rust when their divisor is zero, `.unwrap()` panics on
`None`, and `write_at` panics past the capacity.  On the panic-free paths this
agrees with `relayout`. -/
def relayoutE [Inhabited α] (f oldCap : Nat) (a : Arr α) : Nat → Except (Arr α) (Arr α)
  | 0 => .ok a
  | k + 1 =>
      match relayoutE f oldCap a k with
      | .error b => .error b
      | .ok b =>
          if oldCap = 0 then .error b
          else if b.capacity = 0 then .error b
          else
            let former_idx := (f + k) % oldCap
            let new_idx := (f + k) % b.capacity
            if former_idx ≠ new_idx then
              match b.read_at former_idx with
              | none => .error b
              | some v =>
                  match b.write_atE new_idx v with
                  | none => .error b
                  | some b2 => .ok b2
            else .ok b

/-- Embeds `ArrayQueue::resize` with allocation failure and panics explicit:
`allocOk` is the allocator outcome inside `Array::reallocate`. -/
def ArrayQueue.resizeE [Inhabited α] (allocOk : Bool) (q : ArrayQueue α) :
    Except (ArrayQueue α) (ArrayQueue α) :=
  let oldCap := q.arr.capacity
  match q.arr.reallocateE (2 * oldCap) allocOk with
  | .error a => .error { q with arr := a }
  | .ok a =>
      match relayoutE q.first_in oldCap a q.size with
      | .error b => .error { q with arr := b }
      | .ok b => .ok { q with arr := b }

/-- Embeds `ArrayQueue::enqueue` with panics explicit: after a (possibly
resizing) start, `(first_in + size) % capacity` panics in Rust when the
capacity is zero, and `write_at` panics past the capacity. -/
def ArrayQueue.enqueueE [Inhabited α] (allocOk : Bool) (q : ArrayQueue α) (v : α) :
    Except (ArrayQueue α) (ArrayQueue α) :=
  match (if q.size ≥ q.arr.capacity then ArrayQueue.resizeE allocOk q else .ok q) with
  | .error q1 => .error q1
  | .ok q1 =>
      if q1.arr.capacity = 0 then .error q1
      else
        let dest_idx := (q1.first_in + q1.size) % q1.arr.capacity
        match q1.arr.write_atE dest_idx v with
        | none => .error q1
        | some a => .ok { q1 with arr := a, size := q1.size + 1 }

/-- Reachable state used by the C1 and C8 counterexamples: capacity 4,
enqueue 7, 0, 1, 2, then dequeue once.  The deque now holds the logical
sequence [0, 1, 2] with first_in = 1, and physical slot 0 still holds the
stale value 7. -/
def cexDeque : ArrayQueue Nat :=
  (([7, 0, 1, 2].foldl ArrayQueue.enqueue (ArrayQueue.with_capacity 4)).dequeue).2

/-- State used by the C4 counterexample: capacity 2, enqueue 1, enqueue 2,
dequeue (first_in becomes 1), then remove(0), whose head branch runs
`first_in += 1` without wrapping. -/
def c4Deque : ArrayQueue Nat :=
  ((((ArrayQueue.with_capacity 2).enqueue 1).enqueue 2).dequeue.2.remove 0).2

/-- State used by the C5 counterexample: capacity 4 holding [1, 2]. -/
def c5Deque : ArrayQueue Nat := [1, 2].foldl ArrayQueue.enqueue (ArrayQueue.with_capacity 4)

/-- State used by the C6 counterexample: capacity 1 holding [5]. -/
def c6Deque : ArrayQueue Nat := (ArrayQueue.with_capacity 1).enqueue 5

/-- Raw buffer used by the C7 theorem: capacity 1. -/
def c7Buf : Arr Nat := { buf := fun _ => 0, capacity := 1, size := 0 }

/-- Raw array used by the C9 witness: capacity 4 holding 2 elements, so one
remove drops the size below capacity / 2. -/
def c9Arr : Arr Nat := { buf := fun _ => 0, capacity := 4, size := 2 }

/-- The state invariant of the ring container claimed by the spec's data
model (section 3): positive capacity, `size <= capacity`,
`first_in < capacity`. -/
def ArrayQueue.Wf (q : ArrayQueue α) : Prop :=
  1 ≤ q.arr.capacity ∧ q.size ≤ q.arr.capacity ∧ q.first_in < q.arr.capacity

instance (q : ArrayQueue α) : Decidable q.Wf := by
  unfold ArrayQueue.Wf; infer_instance

/-- One FIFO operation of the ring container, as named by the spec. -/
inductive Op (α : Type) where
  | enq : α → Op α
  | deq : Op α

/-- Runs one operation on the embedded container (a dequeue discards the
returned value and keeps the successor state). -/
def stepOp [Inhabited α] (q : ArrayQueue α) : Op α → ArrayQueue α
  | .enq v => q.enqueue v
  | .deq => (q.dequeue).2

/-- Runs a sequence of FIFO operations on the embedded container. -/
def runOps [Inhabited α] (q : ArrayQueue α) (ops : List (Op α)) : ArrayQueue α :=
  ops.foldl stepOp q

/-- The reference semantics of one FIFO operation on a plain list: enqueue
appends at the back, dequeue drops the front (no-op when empty). -/
def modelStep (l : List α) : Op α → List α
  | .enq v => l ++ [v]
  | .deq => l.tail

/-- The reference semantics of a sequence of FIFO operations started empty:
position `i` of the result is the value logically inserted at position `i`. -/
def modelRun (ops : List (Op α)) : List α := ops.foldl modelStep []

/-- `n` consecutive dequeues, collecting the returned values in order. -/
def dequeueN [Inhabited α] (q : ArrayQueue α) : Nat → List (Option α) × ArrayQueue α
  | 0 => ([], q)
  | n + 1 =>
      let p := q.dequeue
      let r := dequeueN p.2 n
      (p.1 :: r.1, r.2)

/-- C1: on the reachable deque `cexDeque` holding [0, 1, 2] (with
first_in = 1), `add(1, 9)` takes the head-shift branch and produces
[7, 9, 1, 2] instead of the specified [0, 9, 1, 2]: logical position 0 now
reads the stale slot first_in - 1, and the old element 1 is lost.  This
evaluates the code at the failing input of the C1 code bug. -/
theorem c1_add_head_shift_bug :
    ArrayQueue.toList cexDeque = [0, 1, 2] ∧
    ArrayQueue.peek (ArrayQueue.add cexDeque 1 9) 0 = some 7 ∧
    ArrayQueue.toList (ArrayQueue.add cexDeque 1 9) = [7, 9, 1, 2] := by
  decide

/-- C8: on the same reachable deque holding [0, 1, 2], `add(1, 9)` followed
by `remove(1)` returns 9 but leaves [7, 1, 2], not the prior [0, 1, 2]: the
round trip does not restore the sequence.  This evaluates the code at the
failing input of the C8 code bug. -/
theorem c8_round_trip_bug :
    ArrayQueue.toList cexDeque = [0, 1, 2] ∧
    ((ArrayQueue.add cexDeque 1 9).remove 1).1 = some 9 ∧
    ArrayQueue.toList ((ArrayQueue.add cexDeque 1 9).remove 1).2 = [7, 1, 2] := by
  decide

/-- C4: after capacity 2, enqueue 1, enqueue 2, dequeue, remove(0), the field
first_in equals 2 = capacity, breaking the invariant 0 <= first_in < capacity
(remove's head branch advances first_in without reducing modulo capacity).
This evaluates the code at the failing input of the C4 code bug. -/
theorem c4_first_in_invariant_bug :
    c4Deque.first_in = 2 ∧ c4Deque.arr.capacity = 2 := by
  decide

/-- C5 counterexample: `add(5, 99)` on a size-2 deque is not rejected: the
size grows to 3 and the value 99 is written at physical slot
(first_in + 5) mod 4 = 1, overwriting the logical element at position 1.
The state is mutated and no absent-value indicator exists (`add` returns
nothing), so the claim is false for `add` at an invalid index. -/
theorem c5_add_no_validation_cex :
    c5Deque.size = 2 ∧ ArrayQueue.peek c5Deque 1 = some 2 ∧
    (ArrayQueue.add c5Deque 5 99).size = 3 ∧
    ArrayQueue.peek (ArrayQueue.add c5Deque 5 99) 1 = some 99 := by
  decide

/-- C5 amended: dequeue and remove on an empty deque, peek at i >= size and
remove at idx >= size return `none` and leave the container exactly as it
was, without a fatal abort (each guard returns before any state change). -/
theorem c5_invalid_index_amended [Inhabited α] (q : ArrayQueue α) (i : Nat)
    (h : q.size ≤ i) :
    q.peek i = none ∧ q.remove i = (none, q) ∧
    (q.size = 0 → q.dequeue = (none, q)) := by
  refine ⟨?_, ?_, fun h0 => ?_⟩
  · simp [ArrayQueue.peek, h]
  · simp [ArrayQueue.remove, h]
  · simp [ArrayQueue.dequeue, h0]

/-- C5 amended, witness: the empty capacity-1 deque at index 0. -/
theorem c5_invalid_index_amended_witness :
    (ArrayQueue.with_capacity 1 : ArrayQueue Nat).size ≤ 0 ∧
    ArrayQueue.peek (ArrayQueue.with_capacity 1 : ArrayQueue Nat) 0 = none := by
  exact ⟨Nat.le_refl 0, (c5_invalid_index_amended (ArrayQueue.with_capacity 1) 0 (Nat.le_refl 0)).1⟩

/-- C6 counterexample: on the capacity-1 deque holding [5], a grow whose
allocation fails panics with the capacity field already set to 2, not the
prior 1: the container does not remain in its prior state, refuting the
strong failure-safety part of the claim. -/
theorem c6_partial_resize_cex :
    ArrayQueue.resizeE false c6Deque
      = .error { c6Deque with arr := { c6Deque.arr with capacity := 2 } } ∧
    c6Deque.arr.capacity = 1 ∧ (2 : Nat) ≠ 1 :=
  ⟨rfl, rfl, by decide⟩

/-- C6 amended: a grow whose allocation fails panics (an explicit failure —
never a silent truncation), with size, first_in and the stored slots exactly
as before, but with the capacity field already set to the doubled value, so
the container IS left partially resized. -/
theorem c6_failed_grow_amended [Inhabited α] (q : ArrayQueue α) :
    ArrayQueue.resizeE false q
      = .error { q with arr := { q.arr with capacity := 2 * q.arr.capacity } } :=
  rfl

/-- C7: `write_at` at idx = capacity (one past the last valid slot, here
capacity 1) is NOT rejected: the guard only fires for idx > capacity, so the
out-of-bounds write silently succeeds, while idx = capacity + 1 does panic.
This evaluates the code at the failing input of the C7 code bug. -/
theorem c7_write_at_off_by_one :
    Arr.write_atE c7Buf 1 7 = some (Arr.write_at c7Buf 1 7) ∧
    Arr.write_atE c7Buf 2 7 = none :=
  ⟨rfl, rfl⟩

@[simp]
theorem write_at_capacity (a : Arr α) (i : Nat) (v : α) :
    (a.write_at i v).capacity = a.capacity := rfl

@[simp]
theorem write_at_size (a : Arr α) (i : Nat) (v : α) :
    (a.write_at i v).size = a.size := rfl

theorem write_at_buf_self (a : Arr α) (i : Nat) (v : α) :
    (a.write_at i v).buf i = v := by
  simp [Arr.write_at]

theorem write_at_buf_ne (a : Arr α) {i j : Nat} (v : α) (h : j ≠ i) :
    (a.write_at i v).buf j = a.buf j := by
  simp [Arr.write_at, h]

theorem readD_eq [Inhabited α] (a : Arr α) {i : Nat} (h : i ≤ a.capacity) :
    a.readD i = a.buf i := by
  unfold Arr.readD Arr.read_at
  rw [if_neg (Nat.not_lt.mpr h)]
  rfl

@[simp]
theorem reallocate_capacity [Inhabited α] (a : Arr α) (n : Nat) :
    (a.reallocate n).capacity = n := rfl

theorem reallocate_buf_lt [Inhabited α] (a : Arr α) {n j : Nat} (hj : j < a.capacity)
    (hj2 : j < n) : (a.reallocate n).buf j = a.buf j := by
  show (if j < min a.capacity n then a.buf j else default) = a.buf j
  rw [if_pos (Nat.lt_min.mpr ⟨hj, hj2⟩)]

/-- If a value reduced modulo 2c lands below c, it agrees with the value
modulo c (the relayout of a grown ring moves nothing in this case). -/
theorem mod_double_lt {x c : Nat} (h : x % (2 * c) < c) :
    x % (2 * c) = x % c := by
  have h1 : x % (2 * c) % c = x % c := Nat.mod_mod_of_dvd x (dvd_mul_left c 2)
  rw [Nat.mod_eq_of_lt h] at h1
  exact h1

/-- If a value reduced modulo 2c lands at or above c, it is exactly c more
than the value modulo c (the relayout moves such an element by c slots). -/
theorem mod_double_ge {x c : Nat} (hc : 0 < c) (h : c ≤ x % (2 * c)) :
    x % (2 * c) = c + x % c := by
  have h1 : x % (2 * c) % c = x % c := Nat.mod_mod_of_dvd x (dvd_mul_left c 2)
  have h2 : x % (2 * c) < 2 * c := Nat.mod_lt _ (by omega)
  have h3 : x % (2 * c) % c = x % (2 * c) - c := by
    rw [Nat.mod_eq_sub_mod h]
    exact Nat.mod_eq_of_lt (by omega)
  omega

/-- Distinct logical positions whose distance is below the capacity map to
distinct physical slots. -/
theorem add_mod_ne {f i j m : Nat} (hij : i < j) (hd : j - i < m) :
    (f + i) % m ≠ (f + j) % m := by
  intro hEq
  have hdvd : m ∣ (f + j) - (f + i) :=
    (Nat.modEq_iff_dvd' (by omega)).mp hEq
  have hle : m ≤ (f + j) - (f + i) := Nat.le_of_dvd (by omega) hdvd
  omega

theorem relayout_succ [Inhabited α] (f oc : Nat) (a : Arr α) (k : Nat) :
    relayout f oc a (k + 1) =
      (if (f + k) % oc ≠ (f + k) % (relayout f oc a k).capacity
       then (relayout f oc a k).write_at ((f + k) % (relayout f oc a k).capacity)
              ((relayout f oc a k).readD ((f + k) % oc))
       else relayout f oc a k) := rfl

theorem relayout_capacity [Inhabited α] (f oc : Nat) (a : Arr α) (k : Nat) :
    (relayout f oc a k).capacity = a.capacity := by
  induction k with
  | zero => rfl
  | succ k ih =>
      rw [relayout_succ]
      split
      · exact ih
      · exact ih

theorem relayout_size [Inhabited α] (f oc : Nat) (a : Arr α) (k : Nat) :
    (relayout f oc a k).size = a.size := by
  induction k with
  | zero => rfl
  | succ k ih =>
      rw [relayout_succ]
      split
      · exact ih
      · exact ih

/-- Correctness of the grow-and-relayout copy loop: run on a buffer of
capacity 2c with `k <= c` logical elements, it leaves every slot below c
untouched and makes the slot `(f + i) % 2c` of each processed logical
position hold the value that slot `(f + i) % c` held before the loop. -/
theorem relayout_spec [Inhabited α] (f oc : Nat) (a : Arr α)
    (hcap : a.capacity = 2 * oc) (hoc : 0 < oc) (k : Nat) (hk : k ≤ oc) :
    (∀ j, j < oc → (relayout f oc a k).buf j = a.buf j) ∧
    (∀ i, i < k →
      (relayout f oc a k).buf ((f + i) % (2 * oc)) = a.buf ((f + i) % oc)) := by
  induction k with
  | zero => exact ⟨fun j _ => rfl, fun i hi => absurd hi (Nat.not_lt_zero i)⟩
  | succ k ih =>
      obtain ⟨ih1, ih2⟩ := ih (Nat.le_of_succ_le hk)
      have hbcap : (relayout f oc a k).capacity = 2 * oc :=
        (relayout_capacity f oc a k).trans hcap
      have hstep : relayout f oc a (k + 1) =
          (if (f + k) % oc ≠ (f + k) % (2 * oc)
           then (relayout f oc a k).write_at ((f + k) % (2 * oc))
                  ((relayout f oc a k).readD ((f + k) % oc))
           else relayout f oc a k) := by
        rw [relayout_succ, hbcap]
      rw [hstep]
      by_cases heq : (f + k) % oc = (f + k) % (2 * oc)
      · rw [if_neg (fun hcon => hcon heq)]
        refine ⟨ih1, fun i hi => ?_⟩
        rcases Nat.lt_succ_iff_lt_or_eq.mp hi with hi' | rfl
        · exact ih2 i hi'
        · rw [← heq]
          exact ih1 _ (Nat.mod_lt _ hoc)
      · rw [if_pos heq]
        have hge : oc ≤ (f + k) % (2 * oc) := by
          by_contra hcon
          exact heq (mod_double_lt (Nat.lt_of_not_le hcon)).symm
        have hvald : (relayout f oc a k).readD ((f + k) % oc)
            = a.buf ((f + k) % oc) := by
          rw [readD_eq _ (by
            rw [hbcap]
            have h5 := Nat.mod_lt (f + k) hoc
            omega : (f + k) % oc ≤ (relayout f oc a k).capacity)]
          exact ih1 _ (Nat.mod_lt _ hoc)
        constructor
        · intro j hj
          rw [write_at_buf_ne _ _ (by omega : j ≠ (f + k) % (2 * oc))]
          exact ih1 j hj
        · intro i hi
          rcases Nat.lt_succ_iff_lt_or_eq.mp hi with hi' | rfl
          · have hne : (f + i) % (2 * oc) ≠ (f + k) % (2 * oc) :=
              add_mod_ne hi' (by omega)
            rw [write_at_buf_ne _ _ hne]
            exact ih2 i hi'
          · rw [write_at_buf_self, hvald]

theorem toList_length (q : ArrayQueue α) : (q.toList).length = q.size := by
  simp [ArrayQueue.toList]

theorem resize_eq [Inhabited α] (q : ArrayQueue α) :
    q.resize = { q with
      arr := relayout q.first_in q.arr.capacity
               (q.arr.reallocate (2 * q.arr.capacity)) q.size } := rfl

/-- Growth preserves the logical contents, doubles the capacity, and leaves
size and first_in alone; the result is again well-formed. -/
theorem resize_spec [Inhabited α] (q : ArrayQueue α) (h : q.Wf) :
    (q.resize).toList = q.toList ∧ (q.resize).arr.capacity = 2 * q.arr.capacity ∧
    (q.resize).size = q.size ∧ (q.resize).first_in = q.first_in ∧ (q.resize).Wf := by
  obtain ⟨hc, hs, hf⟩ := h
  have hcap2 : (q.resize).arr.capacity = 2 * q.arr.capacity := by
    rw [resize_eq]
    exact (relayout_capacity _ _ _ _).trans (reallocate_capacity _ _)
  have hsz : (q.resize).size = q.size := rfl
  have hfi : (q.resize).first_in = q.first_in := rfl
  have hspec := relayout_spec q.first_in q.arr.capacity
    (q.arr.reallocate (2 * q.arr.capacity)) (reallocate_capacity _ _) (by omega) q.size hs
  refine ⟨?_, hcap2, hsz, hfi, ?_⟩
  · unfold ArrayQueue.toList
    simp only [hcap2, hsz, hfi]
    apply List.map_congr_left
    intro i hi
    have hi' : i < q.size := List.mem_range.mp hi
    have hmod : (q.first_in + i) % q.arr.capacity < q.arr.capacity :=
      Nat.mod_lt _ (by omega)
    calc (q.resize).arr.buf ((q.first_in + i) % (2 * q.arr.capacity))
        = (q.arr.reallocate (2 * q.arr.capacity)).buf
            ((q.first_in + i) % q.arr.capacity) := by
          rw [resize_eq]; exact hspec.2 i hi'
      _ = q.arr.buf ((q.first_in + i) % q.arr.capacity) :=
          reallocate_buf_lt _ hmod (by omega)
  · unfold ArrayQueue.Wf
    rw [hcap2, hsz, hfi]
    exact ⟨by omega, by omega, by omega⟩

theorem enqueue_eq_grow [Inhabited α] (q : ArrayQueue α) (v : α)
    (h : q.size ≥ q.arr.capacity) :
    q.enqueue v = { q.resize with
      arr := (q.resize).arr.write_at
               (((q.resize).first_in + (q.resize).size) % (q.resize).arr.capacity) v,
      size := (q.resize).size + 1 } := by
  unfold ArrayQueue.enqueue
  rw [if_pos h]

theorem enqueue_eq_nogrow [Inhabited α] (q : ArrayQueue α) (v : α)
    (h : ¬ q.size ≥ q.arr.capacity) :
    q.enqueue v = { q with
      arr := q.arr.write_at ((q.first_in + q.size) % q.arr.capacity) v,
      size := q.size + 1 } := by
  unfold ArrayQueue.enqueue
  rw [if_neg h]

/-- Writing the new value at physical slot `(first_in + size) % capacity` and
bumping the size appends it to the logical contents. -/
theorem enqueue_write_toList [Inhabited α] (q : ArrayQueue α) (v : α)
    (hs : q.size < q.arr.capacity) :
    ArrayQueue.toList { q with
        arr := q.arr.write_at ((q.first_in + q.size) % q.arr.capacity) v,
        size := q.size + 1 }
      = q.toList ++ [v] := by
  rcases q with ⟨a, f, s⟩
  show (List.range (s + 1)).map
      (fun i => (a.write_at ((f + s) % a.capacity) v).buf ((f + i) % a.capacity))
    = (List.range s).map (fun i => a.buf ((f + i) % a.capacity)) ++ [v]
  rw [List.range_succ, List.map_append]
  congr 1
  · apply List.map_congr_left
    intro i hi
    have hi' : i < s := List.mem_range.mp hi
    exact write_at_buf_ne _ _ (add_mod_ne hi' (by simp at hs ⊢; omega))
  · simp only [List.map_cons, List.map_nil]
    rw [write_at_buf_self]

/-- The enqueue simulation: one enqueue appends the value to the logical
contents, preserves well-formedness and first_in, bumps the size, and doubles
the capacity exactly when the container was full. -/
theorem enqueue_spec [Inhabited α] (q : ArrayQueue α) (v : α) (h : q.Wf) :
    (q.enqueue v).toList = q.toList ++ [v] ∧ (q.enqueue v).Wf ∧
    (q.enqueue v).size = q.size + 1 ∧ (q.enqueue v).first_in = q.first_in ∧
    (q.enqueue v).arr.capacity
      = (if q.arr.capacity ≤ q.size then 2 * q.arr.capacity else q.arr.capacity) := by
  obtain ⟨hc, hs, hf⟩ := h
  by_cases hge : q.size ≥ q.arr.capacity
  · obtain ⟨hTL, hCap, hSz, hFi, hWf⟩ := resize_spec q ⟨hc, hs, hf⟩
    obtain ⟨hc2, hs2, hf2⟩ := hWf
    rw [enqueue_eq_grow q v hge]
    have hroom : (q.resize).size < (q.resize).arr.capacity := by omega
    refine ⟨?_, ⟨?_, ?_, ?_⟩, ?_, ?_, ?_⟩
    · rw [enqueue_write_toList (q.resize) v hroom, hTL]
    · show 1 ≤ (q.resize).arr.capacity
      omega
    · show (q.resize).size + 1 ≤ (q.resize).arr.capacity
      omega
    · show (q.resize).first_in < (q.resize).arr.capacity
      omega
    · show (q.resize).size + 1 = q.size + 1
      omega
    · show (q.resize).first_in = q.first_in
      exact hFi
    · show (q.resize).arr.capacity = _
      rw [if_pos (by omega)]
      exact hCap
  · rw [enqueue_eq_nogrow q v hge]
    have hroom : q.size < q.arr.capacity := by omega
    refine ⟨enqueue_write_toList q v hroom, ⟨?_, ?_, ?_⟩, ?_, ?_, ?_⟩
    · show 1 ≤ q.arr.capacity
      omega
    · show q.size + 1 ≤ q.arr.capacity
      omega
    · show q.first_in < q.arr.capacity
      omega
    · show q.size + 1 = q.size + 1
      rfl
    · rfl
    · show q.arr.capacity = _
      rw [if_neg (by omega)]

theorem dequeue_zero [Inhabited α] (q : ArrayQueue α) (h : q.size = 0) :
    q.dequeue = (none, q) := by
  unfold ArrayQueue.dequeue
  rw [if_pos h]

/-- The dequeue simulation on a non-empty container: it returns the front of
the logical contents, the successor state holds the tail, stays well-formed,
and the backing buffer is untouched. -/
theorem dequeue_spec [Inhabited α] (q : ArrayQueue α) (h : q.Wf) (h0 : 0 < q.size) :
    (q.dequeue).1 = some (q.arr.buf q.first_in) ∧
    q.toList = q.arr.buf q.first_in :: ArrayQueue.toList (q.dequeue).2 ∧
    (q.dequeue).2.Wf ∧ (q.dequeue).2.size = q.size - 1 ∧
    (q.dequeue).2.arr = q.arr := by
  obtain ⟨hc, hs, hf⟩ := h
  rcases q with ⟨a, f, s⟩
  dsimp only at hc hs hf h0
  rcases s with _ | m
  · exact absurd h0 (by omega)
  have hne : ¬ (ArrayQueue.mk a f (m + 1)).size = 0 := Nat.succ_ne_zero m
  have heq : (ArrayQueue.mk a f (m + 1)).dequeue =
      (a.read_at f, ⟨a, (f + 1) % a.capacity, m⟩) := by
    unfold ArrayQueue.dequeue
    rw [if_neg hne]
    rfl
  rw [heq]
  have hread : a.read_at f = some (a.buf f) := by
    unfold Arr.read_at
    rw [if_neg (Nat.not_lt.mpr (by omega))]
  refine ⟨hread, ?_,
    ⟨hc, show m ≤ a.capacity by omega,
     show (f + 1) % a.capacity < a.capacity from Nat.mod_lt _ (by omega)⟩, rfl, rfl⟩
  show (List.range (m + 1)).map (fun i => a.buf ((f + i) % a.capacity))
    = a.buf f :: (List.range m).map (fun i => a.buf (((f + 1) % a.capacity + i) % a.capacity))
  rw [List.range_succ_eq_map, List.map_cons, List.map_map]
  congr 1
  · show a.buf ((f + 0) % a.capacity) = a.buf f
    rw [Nat.add_zero, Nat.mod_eq_of_lt (by omega)]
  · apply List.map_congr_left
    intro i _
    show a.buf ((f + (i + 1)) % a.capacity) = a.buf (((f + 1) % a.capacity + i) % a.capacity)
    rw [Nat.mod_add_mod, show f + (i + 1) = f + 1 + i by omega]

/-- Peek agrees with indexing into the logical contents. -/
theorem peek_eq_toList [Inhabited α] (q : ArrayQueue α) (h : q.Wf) (i : Nat) :
    q.peek i = (q.toList)[i]? := by
  obtain ⟨hc, hs, hf⟩ := h
  by_cases hi : i < q.size
  · unfold ArrayQueue.peek
    rw [if_neg (Nat.not_le.mpr hi)]
    unfold Arr.read_at
    rw [if_neg (Nat.not_lt.mpr (Nat.le_of_lt (Nat.mod_lt _ (by omega))))]
    unfold ArrayQueue.toList
    rw [List.getElem?_map, List.getElem?_range hi]
    rfl
  · unfold ArrayQueue.peek
    rw [if_pos (Nat.not_lt.mp hi)]
    rw [List.getElem?_eq_none (by rw [toList_length]; omega)]

/-- Enqueuing a whole list appends it to the logical contents. -/
theorem foldl_enqueue_spec [Inhabited α] (es : List α) (q : ArrayQueue α) (h : q.Wf) :
    ArrayQueue.toList (es.foldl ArrayQueue.enqueue q) = q.toList ++ es ∧
    (es.foldl ArrayQueue.enqueue q).Wf := by
  induction es generalizing q with
  | nil => exact ⟨by simp, h⟩
  | cons v es ih =>
      obtain ⟨h1, h2, _, _, _⟩ := enqueue_spec q v h
      obtain ⟨ih1, ih2⟩ := ih (q.enqueue v) h2
      refine ⟨?_, ih2⟩
      rw [List.foldl_cons, ih1, h1]
      simp

theorem with_capacity_wf [Inhabited α] (c : Nat) (hc : 1 ≤ c) :
    (ArrayQueue.with_capacity c : ArrayQueue α).Wf :=
  ⟨hc, Nat.zero_le c, hc⟩

theorem with_capacity_toList [Inhabited α] (c : Nat) :
    (ArrayQueue.with_capacity c : ArrayQueue α).toList = [] := rfl

/-- Draining a container of its full size returns exactly its logical
contents, in order. -/
theorem dequeueN_toList [Inhabited α] (n : Nat) (q : ArrayQueue α) (h : q.Wf)
    (hn : n = q.size) : (dequeueN q n).1 = (q.toList).map some := by
  induction n generalizing q with
  | zero =>
      have : q.toList = [] :=
        List.eq_nil_of_length_eq_zero (by rw [toList_length]; omega)
      rw [this]
      rfl
  | succ n ih =>
      obtain ⟨h1, h2, h3, h4, _⟩ := dequeue_spec q h (by omega)
      show (q.dequeue).1 :: (dequeueN (q.dequeue).2 n).1 = _
      rw [h1, h2, ih (q.dequeue).2 h3 (by omega), List.map_cons]

/-- C2: for every element type, every starting capacity c >= 1 and every
list of values e1..en, enqueuing e1..en in order into a fresh ring container
and then dequeuing n times returns exactly e1..en in that order. -/
theorem c2_fifo_order [Inhabited α] (c : Nat) (hc : 1 ≤ c) (es : List α) :
    (dequeueN (es.foldl ArrayQueue.enqueue (ArrayQueue.with_capacity c))
      es.length).1 = es.map some := by
  obtain ⟨h1, h2⟩ := foldl_enqueue_spec es (ArrayQueue.with_capacity c)
    (with_capacity_wf c hc)
  rw [with_capacity_toList, List.nil_append] at h1
  have hlen : es.length = (es.foldl ArrayQueue.enqueue (ArrayQueue.with_capacity c)).size := by
    rw [← toList_length, h1]
  rw [dequeueN_toList _ _ h2 hlen, h1]

/-- C2 witness: capacity 1 (so the run grows twice), values 3, 4, 5. -/
theorem c2_fifo_order_witness :
    1 ≤ 1 ∧
    (dequeueN (([3, 4, 5] : List Nat).foldl ArrayQueue.enqueue
        (ArrayQueue.with_capacity 1)) ([3, 4, 5] : List Nat).length).1
      = ([3, 4, 5] : List Nat).map some :=
  ⟨Nat.le_refl 1, c2_fifo_order 1 (Nat.le_refl 1) [3, 4, 5]⟩

/-- The run simulation: the logical contents after any sequence of FIFO
operations equal the reference list semantics of that sequence. -/
theorem runOps_spec [Inhabited α] (ops : List (Op α)) (q : ArrayQueue α) (h : q.Wf) :
    ArrayQueue.toList (runOps q ops) = ops.foldl modelStep q.toList ∧
    (runOps q ops).Wf := by
  induction ops generalizing q with
  | nil => exact ⟨rfl, h⟩
  | cons op ops ih =>
      rcases op with v | _
      · obtain ⟨h1, h2, _, _, _⟩ := enqueue_spec q v h
        obtain ⟨ih1, ih2⟩ := ih (q.enqueue v) h2
        refine ⟨?_, ih2⟩
        show ArrayQueue.toList (runOps (q.enqueue v) ops) = _
        rw [ih1, h1]
        rfl
      · by_cases h0 : q.size = 0
        · have hq : (q.dequeue).2 = q := by rw [dequeue_zero q h0]
          have hl : q.toList = [] :=
            List.eq_nil_of_length_eq_zero (by rw [toList_length]; omega)
          obtain ⟨ih1, ih2⟩ := ih (q.dequeue).2 (by rw [hq]; exact h)
          refine ⟨?_, ih2⟩
          show ArrayQueue.toList (runOps (q.dequeue).2 ops) = _
          rw [ih1, hq, hl]
          rfl
        · obtain ⟨_, h2, h3, _, _⟩ := dequeue_spec q h (by omega)
          obtain ⟨ih1, ih2⟩ := ih (q.dequeue).2 h3
          refine ⟨?_, ih2⟩
          show ArrayQueue.toList (runOps (q.dequeue).2 ops) = _
          rw [ih1, h2]
          rfl

/-- C3: for every element type, starting capacity c >= 1 and sequence of
enqueue/dequeue operations (in particular every sequence forcing one or more
grows), peek at every logical position returns the value the reference list
semantics holds at that position: the physical reallocations never disturb
the logical sequence. -/
theorem c3_ring_consistency [Inhabited α] (c : Nat) (hc : 1 ≤ c)
    (ops : List (Op α)) (i : Nat) :
    ArrayQueue.peek (runOps (ArrayQueue.with_capacity c) ops) i
      = (modelRun ops)[i]? := by
  obtain ⟨h1, h2⟩ := runOps_spec ops (ArrayQueue.with_capacity c) (with_capacity_wf c hc)
  rw [peek_eq_toList _ h2 i, h1, with_capacity_toList]
  rfl

/-- C3 witness: capacity 1 with three enqueues and one dequeue forces two
grows; position 1 of the survivors is the value inserted second among them. -/
theorem c3_ring_consistency_witness :
    1 ≤ 1 ∧
    ArrayQueue.peek (runOps (ArrayQueue.with_capacity 1)
        [Op.enq 7, Op.enq 8, Op.enq 9, Op.deq]) 1
      = (modelRun [Op.enq 7, Op.enq 8, Op.enq (9 : Nat), Op.deq])[1]? :=
  ⟨Nat.le_refl 1, c3_ring_consistency 1 (Nat.le_refl 1) [Op.enq 7, Op.enq 8, Op.enq 9, Op.deq] 1⟩

theorem remLoopTail_succ [Inhabited α] (f idx : Nat) (a : Arr α) (k : Nat) :
    remLoopTail f idx a (k + 1) =
      (remLoopTail f idx a k).write_at
        ((f + (idx + k)) % (remLoopTail f idx a k).capacity)
        ((remLoopTail f idx a k).readD
          ((f + (idx + k) + 1) % (remLoopTail f idx a k).capacity)) := rfl

theorem remLoopTail_capacity [Inhabited α] (f idx : Nat) (a : Arr α) (k : Nat) :
    (remLoopTail f idx a k).capacity = a.capacity := by
  induction k with
  | zero => rfl
  | succ k ih => rw [remLoopTail_succ, write_at_capacity, ih]

theorem remLoopHead_capacity [Inhabited α] (f : Nat) (k : Nat) (a : Arr α) :
    (remLoopHead f k a).capacity = a.capacity := by
  induction k generalizing a with
  | zero => rfl
  | succ k ih =>
      show (remLoopHead f k
        (a.write_at ((f + k + 1) % a.capacity) (a.readD ((f + k) % a.capacity)))).capacity
        = a.capacity
      rw [ih, write_at_capacity]

theorem arrRemoveLoop_succ [Inhabited α] (idx : Nat) (a : Arr α) (k : Nat) :
    arrRemoveLoop idx a (k + 1) =
      (arrRemoveLoop idx a k).write_at (idx + k)
        ((arrRemoveLoop idx a k).readD (idx + k + 1)) := rfl

theorem arrRemoveLoop_capacity [Inhabited α] (idx : Nat) (a : Arr α) (k : Nat) :
    (arrRemoveLoop idx a k).capacity = a.capacity := by
  induction k with
  | zero => rfl
  | succ k ih => rw [arrRemoveLoop_succ, write_at_capacity, ih]

/-- The ring container's remove never touches the capacity: both shift
branches only issue `write_at`s. -/
theorem remove_capacity [Inhabited α] (q : ArrayQueue α) (i : Nat) :
    ((q.remove i).2).arr.capacity = q.arr.capacity := by
  unfold ArrayQueue.remove
  by_cases hge : i ≥ q.size
  · rw [if_pos hge]
  · rw [if_neg hge]
    show (if i > q.size / 2
          then { q with arr := remLoopTail q.first_in i q.arr (q.size - 1 - i) }
          else { q with arr := remLoopHead q.first_in i q.arr,
                        first_in := q.first_in + 1 }).arr.capacity = q.arr.capacity
    split
    · exact remLoopTail_capacity q.first_in i q.arr (q.size - 1 - i)
    · exact remLoopHead_capacity q.first_in i q.arr

/-- The ring container's dequeue never touches the backing buffer. -/
theorem dequeue_capacity [Inhabited α] (q : ArrayQueue α) :
    ((q.dequeue).2).arr.capacity = q.arr.capacity := by
  unfold ArrayQueue.dequeue
  split
  · rfl
  · rfl

/-- The shrink case of the plain growable array's size policy. -/
theorem adjust_size_shrink [Inhabited α] (a : Arr α) (h1 : ¬ a.size ≥ a.capacity)
    (h2 : a.size < a.capacity / 2) (h3 : a.capacity / 2 ≠ a.capacity) :
    (a.adjust_size).capacity = a.capacity / 2 := by
  simp only [Arr.adjust_size]
  rw [if_neg h1, if_pos h2, if_pos h3]
  rfl

/-- The plain growable array's remove halves the capacity as soon as the new
size drops below half the capacity. -/
theorem arr_remove_shrinks [Inhabited α] (a : Arr α) (idx : Nat)
    (h1 : idx < a.size) (h2 : a.size ≤ a.capacity) (h3 : a.size - 1 < a.capacity / 2) :
    ((a.remove idx).2).capacity = a.capacity / 2 := by
  have hbcap : (arrRemoveLoop idx a (a.size - 1 - idx)).capacity = a.capacity :=
    arrRemoveLoop_capacity idx a (a.size - 1 - idx)
  have hhalf : a.capacity / 2 ≠ a.capacity :=
    Nat.ne_of_lt (Nat.div_lt_self (by omega) (by omega))
  have hstep := adjust_size_shrink
    { arrRemoveLoop idx a (a.size - 1 - idx) with size := a.size - 1 }
    (show ¬ a.size - 1 ≥ (arrRemoveLoop idx a (a.size - 1 - idx)).capacity by
      rw [hbcap]; omega)
    (show a.size - 1 < (arrRemoveLoop idx a (a.size - 1 - idx)).capacity / 2 by
      rw [hbcap]; exact h3)
    (show (arrRemoveLoop idx a (a.size - 1 - idx)).capacity / 2
        ≠ (arrRemoveLoop idx a (a.size - 1 - idx)).capacity by
      rw [hbcap]; exact hhalf)
  unfold Arr.remove
  rw [if_neg (Nat.not_le.mpr h1)]
  show (Arr.adjust_size
      { arrRemoveLoop idx a (a.size - 1 - idx) with size := a.size - 1 }).capacity
    = a.capacity / 2
  rw [hstep]
  show (arrRemoveLoop idx a (a.size - 1 - idx)).capacity / 2 = a.capacity / 2
  rw [hbcap]

/-- While there is room for the whole list, enqueuing it never changes the
capacity and adds exactly its length to the size. -/
theorem foldl_enqueue_capacity [Inhabited α] (es : List α) (q : ArrayQueue α)
    (h : q.Wf) (hroom : q.size + es.length ≤ q.arr.capacity) :
    (es.foldl ArrayQueue.enqueue q).arr.capacity = q.arr.capacity ∧
    (es.foldl ArrayQueue.enqueue q).size = q.size + es.length ∧
    (es.foldl ArrayQueue.enqueue q).Wf := by
  induction es generalizing q with
  | nil => exact ⟨rfl, by simp, h⟩
  | cons v es ih =>
      have hlen : (v :: es).length = es.length + 1 := rfl
      rw [hlen] at hroom
      obtain ⟨_, h2, h3, _, h5⟩ := enqueue_spec q v h
      have hcap : (q.enqueue v).arr.capacity = q.arr.capacity := by
        rw [h5, if_neg (by omega)]
      obtain ⟨ih1, ih2, ih3⟩ := ih (q.enqueue v) h2 (by rw [hcap, h3]; omega)
      refine ⟨?_, ?_, ih3⟩
      · rw [List.foldl_cons, ih1, hcap]
      · rw [List.foldl_cons, ih2, h3, hlen]
        omega

/-- C9: (a) for every starting capacity C >= 1, enqueuing C values and then
one more leaves the ring container with capacity exactly 2C; (b) remove and
dequeue on the ring container never change the capacity (it only grows);
(c) the plain growable array's remove shrinks the capacity to half as soon
as the size drops below capacity / 2. -/
theorem c9_capacity_policy [Inhabited α] (C : Nat) (hC : 1 ≤ C) (es : List α)
    (hlen : es.length = C) (v : α) (q : ArrayQueue α) (i : Nat)
    (a : Arr α) (idx : Nat) (h1 : idx < a.size) (h2 : a.size ≤ a.capacity)
    (h3 : a.size - 1 < a.capacity / 2) :
    ((es.foldl ArrayQueue.enqueue (ArrayQueue.with_capacity C)).enqueue v).arr.capacity
      = 2 * C ∧
    ((q.remove i).2).arr.capacity = q.arr.capacity ∧
    ((q.dequeue).2).arr.capacity = q.arr.capacity ∧
    ((a.remove idx).2).capacity = a.capacity / 2 := by
  refine ⟨?_, remove_capacity q i, dequeue_capacity q, arr_remove_shrinks a idx h1 h2 h3⟩
  obtain ⟨hcap, hsz, hwf⟩ := foldl_enqueue_capacity es (ArrayQueue.with_capacity C)
    (with_capacity_wf C hC) (show 0 + es.length ≤ C by omega)
  obtain ⟨_, _, _, _, h5⟩ := enqueue_spec (es.foldl ArrayQueue.enqueue (ArrayQueue.with_capacity C)) v hwf
  rw [h5, hcap, hsz]
  show (if C ≤ 0 + es.length then 2 * C else C) = 2 * C
  rw [if_pos (by omega)]

/-- C9 witness: C = 1 with one enqueued value then one more (capacity 2);
remove and dequeue on an empty capacity-2 container; a raw array of
capacity 4 and size 2 whose remove drops the size below capacity / 2. -/
theorem c9_capacity_policy_witness :
    1 ≤ 1 ∧ ([5] : List Nat).length = 1 ∧ 0 < c9Arr.size ∧
    c9Arr.size ≤ c9Arr.capacity ∧ c9Arr.size - 1 < c9Arr.capacity / 2 ∧
    (((([5] : List Nat).foldl ArrayQueue.enqueue
        (ArrayQueue.with_capacity 1)).enqueue 6).arr.capacity = 2 * 1 ∧
     (((ArrayQueue.with_capacity 2 : ArrayQueue Nat).remove 0).2).arr.capacity
        = (ArrayQueue.with_capacity 2 : ArrayQueue Nat).arr.capacity ∧
     (((ArrayQueue.with_capacity 2 : ArrayQueue Nat).dequeue).2).arr.capacity
        = (ArrayQueue.with_capacity 2 : ArrayQueue Nat).arr.capacity ∧
     ((c9Arr.remove 0).2).capacity = c9Arr.capacity / 2) :=
  ⟨Nat.le_refl 1, rfl, by decide, by decide, by decide,
   c9_capacity_policy 1 (Nat.le_refl 1) [5] rfl 6 (ArrayQueue.with_capacity 2) 0
     c9Arr 0 (by decide) (by decide) (by decide)⟩

/-- With a zero old capacity and at least one element to relay, the copy loop
panics at its first `% 0`. -/
theorem relayoutE_zero [Inhabited α] (f : Nat) (a : Arr α) (k : Nat) :
    relayoutE f 0 a (k + 1) = .error a := by
  induction k with
  | zero => rfl
  | succ k ih =>
      unfold relayoutE
      rw [ih]

/-- C10: on any ring container whose buffer has capacity zero (in particular
one built by `with_capacity 0`), the grow performed by the first enqueue
doubles the capacity to 2 * 0 = 0, and the enqueue then fails fatally: either
the relayout loop or the destination-slot computation takes `% 0`, which
panics, so no element can ever be inserted. -/
theorem c10_zero_capacity_enqueue (q : ArrayQueue Nat) (v : Nat)
    (h : q.arr.capacity = 0) :
    (q.resize).arr.capacity = 0 ∧ isErr (ArrayQueue.enqueueE true q v) = true := by
  obtain ⟨⟨abuf, acap, asz⟩, f, s⟩ := q
  dsimp only at h
  subst h
  constructor
  · rw [resize_eq]
    show (relayout f 0 ((Arr.mk abuf 0 asz).reallocate (2 * 0)) s).capacity = 0
    rw [relayout_capacity, reallocate_capacity]
  · rcases s with _ | m
    · rfl
    · show isErr (ArrayQueue.enqueueE true ⟨⟨abuf, 0, asz⟩, f, m + 1⟩ v) = true
      simp [ArrayQueue.enqueueE, ArrayQueue.resizeE, Arr.reallocateE, relayoutE_zero, isErr]

theorem read_at_le [Inhabited α] (a : Arr α) {i : Nat} (h : i ≤ a.capacity) :
    a.read_at i = some (a.buf i) := by
  unfold Arr.read_at
  rw [if_neg (Nat.not_lt.mpr h)]

theorem write_atE_le [Inhabited α] (a : Arr α) {i : Nat} (v : α) (h : i ≤ a.capacity) :
    a.write_atE i v = some (a.write_at i v) := by
  unfold Arr.write_atE
  rw [if_neg (Nat.not_lt.mpr h)]

/-- On a buffer already grown to twice a positive old capacity, the
instrumented relayout loop never panics and agrees with the plain one. -/
theorem relayoutE_ok [Inhabited α] (f oc : Nat) (a : Arr α) (hoc : 0 < oc)
    (hcap : a.capacity = 2 * oc) (k : Nat) :
    relayoutE f oc a k = .ok (relayout f oc a k) := by
  induction k with
  | zero => rfl
  | succ k ih =>
      have hbcap : (relayout f oc a k).capacity = 2 * oc :=
        (relayout_capacity f oc a k).trans hcap
      unfold relayoutE
      rw [ih]
      dsimp only
      rw [if_neg (by omega : ¬ oc = 0)]
      rw [hbcap, relayout_succ, hbcap]
      rw [if_neg (by omega : ¬ 2 * oc = 0)]
      by_cases hne : (f + k) % oc ≠ (f + k) % (2 * oc)
      · rw [if_pos hne, if_pos hne]
        have hforle : (f + k) % oc ≤ (relayout f oc a k).capacity := by
          have h5 := Nat.mod_lt (f + k) hoc
          omega
        rw [read_at_le _ hforle]
        dsimp only
        rw [write_atE_le _ _ (by
          have h5 := Nat.mod_lt (f + k) (show 0 < 2 * oc by omega)
          omega)]
        dsimp only
        rw [readD_eq _ hforle]
      · rw [if_neg hne, if_neg hne]

/-- On a well-formed container the instrumented grow never panics and agrees
with the plain one. -/
theorem resizeE_ok [Inhabited α] (q : ArrayQueue α) (h : q.Wf) :
    ArrayQueue.resizeE true q = .ok q.resize := by
  obtain ⟨hc, hs, hf⟩ := h
  dsimp only [ArrayQueue.resizeE, Arr.reallocateE]
  rw [if_pos rfl]
  dsimp only
  rw [relayoutE_ok q.first_in q.arr.capacity (q.arr.reallocate (2 * q.arr.capacity))
    (by omega) (reallocate_capacity q.arr (2 * q.arr.capacity)) q.size]
  rw [resize_eq]

/-- On a well-formed container the instrumented enqueue never panics and
agrees with the plain one: the panic-free embedding used by the functional
claims is the actual behavior of the source on such states. -/
theorem enqueueE_ok [Inhabited α] (q : ArrayQueue α) (v : α) (h : q.Wf) :
    ArrayQueue.enqueueE true q v = .ok (q.enqueue v) := by
  obtain ⟨hc, hs, hf⟩ := h
  unfold ArrayQueue.enqueueE
  by_cases hge : q.size ≥ q.arr.capacity
  · rw [if_pos hge, resizeE_ok q ⟨hc, hs, hf⟩]
    obtain ⟨_, hCap, hSz, _, _⟩ := resize_spec q ⟨hc, hs, hf⟩
    dsimp only
    rw [if_neg (by omega : ¬ (q.resize).arr.capacity = 0)]
    rw [write_atE_le _ v (Nat.le_of_lt (Nat.mod_lt _ (by omega)))]
    dsimp only
    rw [enqueue_eq_grow q v hge]
  · rw [if_neg hge]
    dsimp only
    rw [if_neg (by omega : ¬ q.arr.capacity = 0)]
    rw [write_atE_le _ v (Nat.le_of_lt (Nat.mod_lt _ (by omega)))]
    dsimp only
    rw [enqueue_eq_nogrow q v hge]

/-- C10 witness: the container built by `with_capacity 0`. -/
theorem c10_zero_capacity_enqueue_witness :
    (ArrayQueue.with_capacity 0 : ArrayQueue Nat).arr.capacity = 0 ∧
    ((ArrayQueue.resize (ArrayQueue.with_capacity 0 : ArrayQueue Nat)).arr.capacity = 0 ∧
     isErr (ArrayQueue.enqueueE true (ArrayQueue.with_capacity 0) (5 : Nat)) = true) :=
  ⟨rfl, c10_zero_capacity_enqueue (ArrayQueue.with_capacity 0) 5 rfl⟩

end ODS
